import Mathlib

/-!
Verification of the numerical core of the Couette-Poiseuille flow app
(`src/app.py`).  The Python code is shallowly embedded over `ℚ`: the
arithmetic the claims are about (grid spacing, stencil coefficients,
right-hand sides such as -0.125, Euler updates) is exact in IEEE doubles
at the inputs considered, so rational arithmetic is a faithful model.

Embedded functions, with the Python source they mirror:
  - analytical_solution  (app.py line 34)
  - solve_couette_poiseuille's assembly: dy, grid (np.linspace),
    A_entry / b_entry (the matrix and vector written by the loop at
    lines 43-51), rowSum / isSolution (the linear system A u = b
    handed to np.linalg.solve)
  - IVP_Explicit / IVP_Implicit (lines 56-76); Python's round (banker's
    rounding, half to even) is modelled by pyRound
  - shooting_method / initial_value (lines 79-101)
  - jacobian_eigenvalues' fixed matrix (line 7)
-/

namespace CouettePoiseuille

/-- Analytical solution of the flow, app.py line 34:
`y + (P / 2) * y * (1 - y)`. -/
def analytical_solution (y P : ℚ) : ℚ :=
  y + P / 2 * y * (1 - y)

/-- Grid spacing, app.py line 39: `dy = 1.0 / (N - 1)` (Python integer
subtraction, then exact division). -/
def dy (N : ℕ) : ℚ :=
  1 / ((N : ℚ) - 1)

/-- The grid produced by `np.linspace(0, 1, N)` at app.py line 40: the
i-th of N uniformly spaced points over [0, 1]. -/
def grid (N i : ℕ) : ℚ :=
  (i : ℚ) / ((N : ℚ) - 1)

/-- Entry (i, j) of the matrix A assembled at app.py lines 41-50: zero
matrix, then the loop writes the (1, -2, 1) stencil into rows
1..N-2, then `A[0,0] = 1` and `A[-1,-1] = 1` are written.  Rows 0 and
N-1 are never touched by the loop, so they are identity rows. -/
def A_entry (N i j : ℕ) : ℚ :=
  if i = 0 then (if j = 0 then 1 else 0)
  else if i = N - 1 then (if j = N - 1 then 1 else 0)
  else if j + 1 = i then 1
  else if j = i then -2
  else if j = i + 1 then 1
  else 0

/-- Entry i of the right-hand side b assembled at app.py lines 42-51:
zero vector, interior entries set to `-P * dy**2`, then `b[0] = 0` and
`b[-1] = 1`. -/
def b_entry (P : ℚ) (N i : ℕ) : ℚ :=
  if i = 0 then 0
  else if i = N - 1 then 1
  else -P * dy N ^ 2

/-- Row i of the product A * u for the assembled matrix. -/
def rowSum (N i : ℕ) (u : ℕ → ℚ) : ℚ :=
  ∑ j ∈ Finset.range N, A_entry N i j * u j

/-- u solves the linear system `A u = b` that app.py line 52 hands to
`np.linalg.solve` (only the first N values of u are relevant). -/
def isSolution (P : ℚ) (N : ℕ) (u : ℕ → ℚ) : Prop :=
  ∀ i < N, rowSum N i u = b_entry P N i

/-- The grid as the list of sample points that `np.linspace(0, 1, N)`
returns. -/
def grid_list (N : ℕ) : List ℚ :=
  (List.range N).map (grid N)

/-- The analytical solution sampled on the grid; shown below to be the
unique solution of the assembled system. -/
def u_exact (P : ℚ) (N : ℕ) (i : ℕ) : ℚ :=
  analytical_solution (grid N i) P

/-- The fixed Jacobian matrix of app.py line 7: `[[0, 1], [0, 0]]`. -/
def jacobianMatrix : Matrix (Fin 2) (Fin 2) ℚ :=
  !![0, 1; 0, 0]

/-- Claim C7: the analytical solution satisfies both boundary
conditions exactly, for every P: `analytical_solution 0 P = 0` and
`analytical_solution 1 P = 1`. -/
theorem analytical_boundary_C7 (P : ℚ) :
    analytical_solution 0 P = 0 ∧ analytical_solution 1 P = 1 := by
  constructor <;> (unfold analytical_solution; ring)

/-- Cast of the Python integer subtraction N - 1 for N at least 1. -/
lemma N_sub_one_cast (N : ℕ) (hN : 1 ≤ N) : ((N - 1 : ℕ) : ℚ) = (N : ℚ) - 1 := by
  have h := Nat.cast_sub hN (R := ℚ)
  simpa using h

/-- The last grid point is exactly 1. -/
lemma grid_last (N : ℕ) (hN : 2 ≤ N) : grid N (N - 1) = 1 := by
  have hcpos : 0 < (N : ℚ) - 1 := by
    have h2 : (2 : ℚ) ≤ (N : ℚ) := by exact_mod_cast hN
    linarith
  unfold grid
  rw [N_sub_one_cast N (by omega)]
  exact div_self (ne_of_gt hcpos)

/-- Claim C9: for N at least 2, the grid has N points (indices below N),
endpoints exactly 0 and 1, consecutive spacing exactly dy = 1/(N-1),
and it is strictly increasing, hence ordered. -/
theorem grid_spec_C9 (N : ℕ) (hN : 2 ≤ N) :
    (grid_list N).length = N ∧
    grid N 0 = 0 ∧ grid N (N - 1) = 1 ∧
    (∀ i, i + 1 < N → grid N (i + 1) - grid N i = dy N) ∧
    (∀ i, i + 1 < N → grid N i < grid N (i + 1)) := by
  have hcpos : 0 < (N : ℚ) - 1 := by
    have h2 : (2 : ℚ) ≤ (N : ℚ) := by exact_mod_cast hN
    linarith
  have hc : (N : ℚ) - 1 ≠ 0 := ne_of_gt hcpos
  refine ⟨by simp [grid_list], by simp [grid], grid_last N hN, ?_, ?_⟩
  · intro i _
    unfold grid dy
    push_cast
    rw [div_sub_div_same]
    ring_nf
  · intro i _
    unfold grid
    have h1 : ((i : ℚ)) < (i : ℚ) + 1 := by linarith
    have hcast : ((i + 1 : ℕ) : ℚ) = (i : ℚ) + 1 := by push_cast; ring
    rw [hcast]
    have h2 := mul_lt_mul_of_pos_right h1 (inv_pos.mpr hcpos)
    simpa [div_eq_mul_inv] using h2

/-- Row 0 of the assembled matrix is the identity row: its product with
any u is u 0. -/
lemma rowSum_row_zero (N : ℕ) (hN : 1 ≤ N) (u : ℕ → ℚ) :
    rowSum N 0 u = u 0 := by
  unfold rowSum
  rw [Finset.sum_eq_single 0]
  · simp [A_entry]
  · intro j _ hj0
    simp [A_entry, hj0]
  · intro h
    exact absurd (Finset.mem_range.mpr (by omega)) h

/-- Row N-1 of the assembled matrix is the identity row: its product
with any u is u (N-1). -/
lemma rowSum_row_last (N : ℕ) (hN : 2 ≤ N) (u : ℕ → ℚ) :
    rowSum N (N - 1) u = u (N - 1) := by
  unfold rowSum
  rw [Finset.sum_eq_single (N - 1)]
  · have h0 : N - 1 ≠ 0 := by omega
    simp [A_entry, h0]
  · intro j _ hj
    have h0 : N - 1 ≠ 0 := by omega
    simp [A_entry, h0, hj]
  · intro h
    exact absurd (Finset.mem_range.mpr (by omega)) h

/-- An interior row of the assembled matrix splits into three indicator
summands. -/
lemma A_entry_interior (N i j : ℕ) (h0 : i ≠ 0) (h1 : i ≠ N - 1) :
    A_entry N i j = (if j + 1 = i then (1 : ℚ) else 0) +
      (if j = i then -2 else 0) + (if j = i + 1 then 1 else 0) := by
  unfold A_entry
  rw [if_neg h0, if_neg h1]
  split_ifs with a b c <;> first | omega | norm_num

/-- An interior row of the matrix times u is the second-difference
stencil u (i-1) - 2 u i + u (i+1). -/
lemma rowSum_interior (N i : ℕ) (h1 : 1 ≤ i) (h2 : i ≤ N - 2) (hN : 2 ≤ N)
    (u : ℕ → ℚ) :
    rowSum N i u = u (i - 1) - 2 * u i + u (i + 1) := by
  have hN3 : 3 ≤ N := by omega
  have hi0 : i ≠ 0 := by omega
  have hiN : i ≠ N - 1 := by omega
  unfold rowSum
  have hsplit : ∀ j ∈ Finset.range N, A_entry N i j * u j =
      (if j + 1 = i then (1 : ℚ) else 0) * u j +
      (if j = i then (-2 : ℚ) else 0) * u j +
      (if j = i + 1 then (1 : ℚ) else 0) * u j := by
    intro j _
    rw [A_entry_interior N i j hi0 hiN]
    ring
  rw [Finset.sum_congr rfl hsplit]
  rw [Finset.sum_add_distrib, Finset.sum_add_distrib]
  have e1 : (∑ j ∈ Finset.range N, (if j + 1 = i then (1 : ℚ) else 0) * u j)
      = u (i - 1) := by
    rw [Finset.sum_eq_single (i - 1)]
    · have : i - 1 + 1 = i := by omega
      simp [this]
    · intro j _ hj
      have : j + 1 ≠ i := by omega
      simp [this]
    · intro h
      exact absurd (Finset.mem_range.mpr (by omega)) h
  have e2 : (∑ j ∈ Finset.range N, (if j = i then (-2 : ℚ) else 0) * u j)
      = -2 * u i := by
    rw [Finset.sum_eq_single i]
    · simp
    · intro j _ hj
      simp [hj]
    · intro h
      exact absurd (Finset.mem_range.mpr (by omega)) h
  have e3 : (∑ j ∈ Finset.range N, (if j = i + 1 then (1 : ℚ) else 0) * u j)
      = u (i + 1) := by
    rw [Finset.sum_eq_single (i + 1)]
    · simp
    · intro j _ hj
      simp [hj]
    · intro h
      exact absurd (Finset.mem_range.mpr (by omega)) h
  rw [e1, e2, e3]
  ring

/-- Claim C1: for N at least 2 and any P, each interior row i of the
assembled system has A[i,i-1] = 1, A[i,i] = -2, A[i,i+1] = 1 and
b[i] = -P * dy^2 with dy = 1/(N-1); the boundary rows are A[0,0] = 1,
b[0] = 0, A[N-1,N-1] = 1, b[N-1] = 1; and for P = 2, N = 5 the
assembled right-hand side is [0, -1/8, -1/8, -1/8, 1]
(= [0, -0.125, -0.125, -0.125, 1], exact in double precision). -/
theorem assembly_C1 (P : ℚ) (N i : ℕ) (hN : 2 ≤ N) (h1 : 1 ≤ i)
    (h2 : i ≤ N - 2) :
    A_entry N i (i - 1) = 1 ∧ A_entry N i i = -2 ∧ A_entry N i (i + 1) = 1 ∧
    b_entry P N i = -P * (1 / ((N : ℚ) - 1)) ^ 2 ∧
    A_entry N 0 0 = 1 ∧ b_entry P N 0 = 0 ∧
    A_entry N (N - 1) (N - 1) = 1 ∧ b_entry P N (N - 1) = 1 ∧
    (List.range 5).map (b_entry 2 5) = [0, -1/8, -1/8, -1/8, 1] := by
  have hconc : (List.range 5).map (b_entry 2 5) = [0, -1/8, -1/8, -1/8, 1] := by
    norm_num [List.range_succ, b_entry, dy]
  have hi0 : i ≠ 0 := by omega
  have hiN : i ≠ N - 1 := by omega
  have hlast : N - 1 ≠ 0 := by omega
  refine ⟨?_, ?_, ?_, ?_, ?_, ?_, ?_, ?_, ?_⟩
  · unfold A_entry
    rw [if_neg hi0, if_neg hiN, if_pos (by omega)]
  · unfold A_entry
    rw [if_neg hi0, if_neg hiN, if_neg (by omega), if_pos rfl]
  · unfold A_entry
    rw [if_neg hi0, if_neg hiN, if_neg (by omega), if_neg (by omega),
      if_pos rfl]
  · unfold b_entry dy
    rw [if_neg hi0, if_neg hiN]
  · simp [A_entry]
  · simp [b_entry]
  · unfold A_entry
    rw [if_neg hlast, if_pos rfl, if_pos rfl]
  · unfold b_entry
    rw [if_neg hlast, if_pos rfl]
  · exact hconc

/-- Witness for C1 at P = 2, N = 5, i = 1. -/
theorem assembly_C1_witness :
    (2 ≤ 5 ∧ 1 ≤ 1 ∧ 1 ≤ 5 - 2) ∧
    (A_entry 5 1 0 = 1 ∧ A_entry 5 1 1 = -2 ∧ A_entry 5 1 2 = 1 ∧
    b_entry 2 5 1 = -2 * (1 / ((5 : ℚ) - 1)) ^ 2 ∧
    A_entry 5 0 0 = 1 ∧ b_entry 2 5 0 = 0 ∧
    A_entry 5 (5 - 1) (5 - 1) = 1 ∧ b_entry 2 5 (5 - 1) = 1 ∧
    (List.range 5).map (b_entry 2 5) = [0, -1/8, -1/8, -1/8, 1]) :=
  ⟨by omega, assembly_C1 2 5 1 (by omega) (by omega) (by omega)⟩

/-- Claim C4: any solution of the assembled system has u 0 = 0 and
u (N-1) = 1 exactly, because rows 0 and N-1 are identity rows. -/
theorem solution_boundary_C4 (P : ℚ) (N : ℕ) (u : ℕ → ℚ) (hN : 2 ≤ N)
    (hu : isSolution P N u) : u 0 = 0 ∧ u (N - 1) = 1 := by
  constructor
  · have h := hu 0 (by omega)
    rw [rowSum_row_zero N (by omega) u] at h
    simpa [b_entry] using h
  · have h := hu (N - 1) (by omega)
    rw [rowSum_row_last N hN u] at h
    have hlast : N - 1 ≠ 0 := by omega
    simpa [b_entry, hlast] using h

/-- The analytical solution sampled on the grid solves the assembled
system: the second-difference stencil is exact for quadratics. -/
lemma u_exact_isSolution (P : ℚ) (N : ℕ) (hN : 2 ≤ N) :
    isSolution P N (u_exact P N) := by
  have hcpos : 0 < (N : ℚ) - 1 := by
    have h2 : (2 : ℚ) ≤ (N : ℚ) := by exact_mod_cast hN
    linarith
  have hc : (N : ℚ) - 1 ≠ 0 := ne_of_gt hcpos
  intro i hi
  rcases eq_or_ne i 0 with h0 | h0
  · subst h0
    rw [rowSum_row_zero N (by omega)]
    unfold u_exact grid analytical_solution b_entry
    norm_num
  rcases eq_or_ne i (N - 1) with hlast | hlast
  · subst hlast
    rw [rowSum_row_last N hN]
    unfold u_exact
    rw [grid_last N hN]
    unfold analytical_solution b_entry
    rw [if_neg (by omega : N - 1 ≠ 0), if_pos rfl]
    ring
  · have h1 : 1 ≤ i := by omega
    have h2 : i ≤ N - 2 := by omega
    rw [rowSum_interior N i h1 h2 hN]
    unfold u_exact grid analytical_solution b_entry dy
    rw [if_neg h0, if_neg hlast]
    have hcast1 : ((i - 1 : ℕ) : ℚ) = (i : ℚ) - 1 := by
      have h := Nat.cast_sub h1 (R := ℚ)
      simpa using h
    have hcast2 : ((i + 1 : ℕ) : ℚ) = (i : ℚ) + 1 := by push_cast; ring
    rw [hcast1, hcast2]
    field_simp
    ring

/-- Row products are linear in the solution vector. -/
lemma rowSum_sub (N i : ℕ) (u v : ℕ → ℚ) :
    rowSum N i (fun j => u j - v j) = rowSum N i u - rowSum N i v := by
  unfold rowSum
  simp only [mul_sub]
  exact Finset.sum_sub_distrib

/-- The homogeneous assembled system has only the zero solution: the
interior stencil forces linearity, the boundary rows force both
endpoints to zero. -/
lemma homog_zero (N : ℕ) (hN : 2 ≤ N) (w : ℕ → ℚ)
    (hw : ∀ i < N, rowSum N i w = 0) : ∀ i < N, w i = 0 := by
  have h0 : w 0 = 0 := by
    have h := hw 0 (by omega)
    rwa [rowSum_row_zero N (by omega) w] at h
  have hlast : w (N - 1) = 0 := by
    have h := hw (N - 1) (by omega)
    rwa [rowSum_row_last N hN w] at h
  have aux : ∀ i, i ≤ N - 1 → w i = (i : ℚ) * w 1 := by
    intro i
    induction i using Nat.strong_induction_on with
    | _ i ih =>
      rcases i with _ | i1
      · intro _
        simpa using h0
      · rcases i1 with _ | k
        · intro _
          simp
        · intro hle
          have hint := hw (k + 1) (by omega)
          rw [rowSum_interior N (k + 1) (by omega) (by omega) hN w] at hint
          have hrec : w (k + 2) = 2 * w (k + 1) - w k := by
            have hk : k + 1 - 1 = k := by omega
            rw [hk] at hint
            linarith
          rw [hrec, ih (k + 1) (by omega) (by omega), ih k (by omega) (by omega)]
          push_cast
          ring
  have h1 : w 1 = 0 := by
    have hNl := aux (N - 1) (le_refl _)
    rw [hlast] at hNl
    have hcn : ((N - 1 : ℕ) : ℚ) ≠ 0 := Nat.cast_ne_zero.mpr (by omega)
    have := mul_eq_zero.mp hNl.symm
    exact this.resolve_left hcn
  intro i hi
  rw [aux i (by omega), h1, mul_zero]

/-- Claim C6: for every N at least 2 and every P, the assembled linear
system is non-singular: it has a solution (the sampled analytical
solution) and any solution agrees with it on all N entries, so the
solve always succeeds and the solution is unique. -/
theorem bvp_nonsingular_C6 (P : ℚ) (N : ℕ) (hN : 2 ≤ N) :
    isSolution P N (u_exact P N) ∧
    ∀ v, isSolution P N v → ∀ i < N, v i = u_exact P N i := by
  refine ⟨u_exact_isSolution P N hN, ?_⟩
  intro v hv i hi
  have hw : ∀ j < N, rowSum N j (fun k => v k - u_exact P N k) = 0 := by
    intro j hj
    rw [rowSum_sub, hv j hj, u_exact_isSolution P N hN j hj, sub_self]
  have hz := homog_zero N hN _ hw i hi
  have hz2 : v i - u_exact P N i = 0 := hz
  linarith

/-- Witness for C6 at P = 0, N = 2. -/
theorem bvp_nonsingular_C6_witness :
    2 ≤ 2 ∧ (isSolution 0 2 (u_exact 0 2) ∧
      ∀ v, isSolution 0 2 v → ∀ i < 2, v i = u_exact 0 2 i) :=
  ⟨by omega, bvp_nonsingular_C6 0 2 (by omega)⟩

/-- The identity function solves the assembled system at P = 0, N = 2
(used only as a concrete witness input). -/
lemma linear_isSolution : isSolution 0 2 (fun i => (i : ℚ)) := by
  intro i hi
  interval_cases i <;>
    norm_num [rowSum, Finset.sum_range_succ, A_entry, b_entry]

/-- Witness for C4 at P = 0, N = 2 with the concrete solution
u i = i. -/
theorem solution_boundary_C4_witness :
    (2 ≤ 2 ∧ isSolution 0 2 (fun i => (i : ℚ))) ∧
    (((0 : ℕ) : ℚ) = 0 ∧ ((2 - 1 : ℕ) : ℚ) = 1) :=
  ⟨⟨by omega, linear_isSolution⟩,
    solution_boundary_C4 0 2 (fun i => (i : ℚ)) (by omega) linear_isSolution⟩

/-- Witness for C9 at N = 5. -/
theorem grid_spec_C9_witness :
    2 ≤ 5 ∧ (grid_list 5).length = 5 ∧ grid 5 0 = 0 ∧ grid 5 (5 - 1) = 1 :=
  ⟨by omega, (grid_spec_C9 5 (by omega)).1, (grid_spec_C9 5 (by omega)).2.1,
    (grid_spec_C9 5 (by omega)).2.2.1⟩

/-- Python's built-in round on an exact rational value: round half to
even (banker's rounding).  Used for `round(1/h)` at app.py lines 57,
68, 81. -/
def pyRound (x : ℚ) : ℤ :=
  if x - ⌊x⌋ < 1 / 2 then ⌊x⌋
  else if 1 / 2 < x - ⌊x⌋ then ⌊x⌋ + 1
  else if ⌊x⌋ % 2 = 0 then ⌊x⌋ else ⌊x⌋ + 1

/-- Sample count `iteration = round(1/h) + 1` of app.py lines 57
and 68. -/
def iterationCount (h : ℚ) : ℤ :=
  pyRound (1 / h) + 1

/-- One explicit-Euler update of the state (u1, u2), app.py lines
63-64: `u1[i+1] = u1[i] + u2[i]*h; u2[i+1] = u2[i] + (-p)*h`. -/
def explicitStep (p h : ℚ) (s : ℚ × ℚ) : ℚ × ℚ :=
  (s.1 + s.2 * h, s.2 + (-p) * h)

/-- One semi-implicit update of the state (u1, u2), app.py lines
74-75: `u2[i+1] = u2[i] + (-p)*h; u1[i+1] = u1[i] + u2[i+1]*h` — the
u1 update uses the already-updated u2. -/
def implicitStep (p h : ℚ) (s : ℚ × ℚ) : ℚ × ℚ :=
  (s.1 + (s.2 + (-p) * h) * h, s.2 + (-p) * h)

/-- State (u1[i], u2[i]) after i explicit-Euler steps from (0, g). -/
def explicitState (p h g : ℚ) (i : ℕ) : ℚ × ℚ :=
  (explicitStep p h)^[i] (0, g)

/-- State (u1[i], u2[i]) after i semi-implicit steps from (0, g). -/
def implicitState (p h g : ℚ) (i : ℕ) : ℚ × ℚ :=
  (implicitStep p h)^[i] (0, g)

/-- The u1 array returned by IVP_Explicit for initial slope g. -/
def explicitTrajU (p h g : ℚ) : List ℚ :=
  (List.range (iterationCount h).toNat).map (fun i => (explicitState p h g i).1)

/-- The u2 array returned by IVP_Explicit for initial slope g. -/
def explicitTrajU2 (p h g : ℚ) : List ℚ :=
  (List.range (iterationCount h).toNat).map (fun i => (explicitState p h g i).2)

/-- The u1 array returned by IVP_Implicit for initial slope g. -/
def implicitTrajU (p h g : ℚ) : List ℚ :=
  (List.range (iterationCount h).toNat).map (fun i => (implicitState p h g i).1)

/-- The u2 array returned by IVP_Implicit for initial slope g. -/
def implicitTrajU2 (p h g : ℚ) : List ℚ :=
  (List.range (iterationCount h).toNat).map (fun i => (implicitState p h g i).2)

/-- Terminal u1 of the reference shooting integration, app.py lines
79-90: h = 0.01, arrays of length `iteration = round(1/h)` = 100,
99 explicit-Euler steps from (0, guess), returns `u1[-1]`. -/
def shooting_method (g p : ℚ) : ℚ :=
  ((explicitStep p (1 / 100))^[(pyRound (1 / (1 / 100 : ℚ))).toNat - 1]
    (0, g)).1

/-- One iteration of the search loop of app.py lines 95-100: keep the
candidate when its deviation is strictly smaller than the best so far
(the first candidate always beats the initial infinite deviation). -/
def searchStep (p : ℚ) (best : Option (ℕ × ℚ)) (g : ℕ) : Option (ℕ × ℚ) :=
  match best with
  | none => some (g, |shooting_method (g : ℚ) p - 1|)
  | some b =>
      if |shooting_method (g : ℚ) p - 1| < b.2
      then some (g, |shooting_method (g : ℚ) p - 1|)
      else some b

/-- The initial slope chosen by initial_value, app.py lines 92-101:
line search over candidates 0..99; none models the Python initial
`closest_u2 = None`. -/
def initial_value (p : ℚ) : Option ℕ :=
  ((List.range 100).foldl (searchStep p) none).map Prod.fst

/-- IVP_Explicit of app.py lines 56-65 returning the pair of arrays
(u1, u2).  none models a Python exception: `round(1/h)` with h = 0
raises ZeroDivisionError, and an `iteration` below 1 makes
`np.zeros(iteration)`/`u1[0]` raise. -/
def IVP_Explicit (p h : ℚ) : Option (List ℚ × List ℚ) :=
  if h = 0 then none
  else if iterationCount h < 1 then none
  else some (explicitTrajU p h ((initial_value p).getD 0),
    explicitTrajU2 p h ((initial_value p).getD 0))

/-- IVP_Implicit of app.py lines 67-76, same failure model as
IVP_Explicit. -/
def IVP_Implicit (p h : ℚ) : Option (List ℚ × List ℚ) :=
  if h = 0 then none
  else if iterationCount h < 1 then none
  else some (implicitTrajU p h ((initial_value p).getD 0),
    implicitTrajU2 p h ((initial_value p).getD 0))

/-- Two states with equal u2 components keep equal u2 components under
the two schemes: the u2 update is the same self-contained recurrence
in both. -/
lemma state_snd_eq (p h : ℚ) : ∀ (i : ℕ) (s t : ℚ × ℚ), s.2 = t.2 →
    ((explicitStep p h)^[i] s).2 = ((implicitStep p h)^[i] t).2 := by
  intro i
  induction i with
  | zero => intro s t hst; simpa using hst
  | succ k ih =>
    intro s t hst
    rw [Function.iterate_succ_apply, Function.iterate_succ_apply]
    exact ih _ _ (by simp [explicitStep, implicitStep, hst])

/-- Claim C10: for every P, h > 0 and common initial slope g, the u2
sequences of the explicit and the semi-implicit integrator agree at
every step and elementwise as arrays, because both apply the
self-contained recurrence u2[i+1] = u2[i] + (-P)*h. -/
theorem u2_sequences_equal_C10 (p h g : ℚ) (_hh : 0 < h) :
    (∀ i, (explicitState p h g i).2 = (implicitState p h g i).2) ∧
    (∀ i, (explicitState p h g (i + 1)).2 =
      (explicitState p h g i).2 + (-p) * h) ∧
    (∀ i, (implicitState p h g (i + 1)).2 =
      (implicitState p h g i).2 + (-p) * h) ∧
    explicitTrajU2 p h g = implicitTrajU2 p h g := by
  refine ⟨fun i => state_snd_eq p h i _ _ rfl, ?_, ?_, ?_⟩
  · intro i
    unfold explicitState
    rw [Function.iterate_succ_apply']
    rfl
  · intro i
    unfold implicitState
    rw [Function.iterate_succ_apply']
    rfl
  · unfold explicitTrajU2 implicitTrajU2
    exact List.map_congr_left fun i _ =>
      state_snd_eq p h i _ _ rfl

/-- Witness for C10 at p = 1, h = 1/2, g = 3, step i = 5. -/
theorem u2_sequences_equal_C10_witness :
    (0 : ℚ) < 1 / 2 ∧
    (explicitState 1 (1/2) 3 5).2 = (implicitState 1 (1/2) 3 5).2 :=
  ⟨by norm_num, (u2_sequences_equal_C10 1 (1/2) 3 (by norm_num)).1 5⟩

/-- pyRound returns the floor or the floor plus one. -/
lemma pyRound_mem (x : ℚ) : pyRound x = ⌊x⌋ ∨ pyRound x = ⌊x⌋ + 1 := by
  unfold pyRound
  split_ifs <;> simp

/-- pyRound of a nonnegative value is nonnegative. -/
lemma pyRound_nonneg (x : ℚ) (hx : 0 ≤ x) : 0 ≤ pyRound x := by
  have h := Int.floor_nonneg.mpr hx
  rcases pyRound_mem x with h1 | h1 <;> omega

/-- Values in [-1/2, 0) round to 0, the tie -1/2 included: Python
rounds half to even and 0 is even. -/
lemma pyRound_neg_half (x : ℚ) (h1 : -(1/2) ≤ x) (h2 : x < 0) :
    pyRound x = 0 := by
  have hf : ⌊x⌋ = -1 := by
    rw [Int.floor_eq_iff]
    constructor <;> push_cast <;> linarith
  unfold pyRound
  rw [hf]
  have hr : ¬ (x - ((-1 : ℤ) : ℚ) < 1 / 2) := by push_cast; linarith
  rw [if_neg hr]
  by_cases hgt : (1 / 2 : ℚ) < x - ((-1 : ℤ) : ℚ)
  · rw [if_pos hgt]
    norm_num
  · rw [if_neg hgt, if_neg (by decide : ¬ ((-1 : ℤ) % 2 = 0))]
    norm_num

/-- Values strictly below -1/2 round to at most -1. -/
lemma pyRound_le_neg (x : ℚ) (hx : x < -(1/2)) : pyRound x ≤ -1 := by
  have hneg : ⌊x⌋ < 0 := by
    by_contra hcon
    push_neg at hcon
    have h0 : (0 : ℚ) ≤ x := Int.floor_nonneg.mp hcon
    linarith
  have hfl : (⌊x⌋ : ℚ) ≤ x := Int.floor_le x
  unfold pyRound
  split_ifs with a b c
  · omega
  · push_neg at a
    have h2 : (⌊x⌋ : ℚ) < -1 := by linarith
    have h4 : ⌊x⌋ < -1 := by exact_mod_cast h2
    omega
  · omega
  · push_neg at a
    have h2 : (⌊x⌋ : ℚ) < -1 := by linarith
    have h4 : ⌊x⌋ < -1 := by exact_mod_cast h2
    omega

/-- For positive h the sample count is at least 1. -/
lemma iterationCount_pos_of_pos (h : ℚ) (hh : 0 < h) :
    1 ≤ iterationCount h := by
  unfold iterationCount
  have := pyRound_nonneg (1 / h) (by positivity)
  omega

/-- For h at most -2 the sample count is exactly 1 (round(1/h) = 0), so
the integrators return a single-sample trajectory without failing. -/
lemma iterationCount_of_le_neg_two (h : ℚ) (hh : h ≤ -2) :
    iterationCount h = 1 := by
  have hneg : h < 0 := by linarith
  have h2 : 1 / h < 0 := by
    exact div_neg_of_pos_of_neg (by norm_num) hneg
  have h1 : -(1/2) ≤ 1 / h := by
    rw [le_div_iff_of_neg hneg]
    linarith
  unfold iterationCount
  rw [pyRound_neg_half _ h1 h2]
  norm_num

/-- For h strictly between -2 and 0 the sample count is nonpositive,
so array creation or the first element write fails. -/
lemma iterationCount_nonpos_of_small_neg (h : ℚ) (h1 : -2 < h)
    (h2 : h < 0) : iterationCount h ≤ 0 := by
  have hx : 1 / h < -(1/2) := by
    rw [div_lt_iff_of_neg h2]
    linarith
  unfold iterationCount
  have := pyRound_le_neg _ hx
  omega

/-- Claim C5 (amended): the integrators succeed for every h > 0 (and
are then pure functions of their arguments); they fail for h = 0
(division by zero in round(1/h)) and for -2 < h < 0 (nonpositive
iteration count); but for h at most -2 they do NOT fail — they return
a single-sample trajectory, so not every h at most 0 is rejected, and
no entry validation exists. -/
theorem ivp_step_size_errors_C5 (p h : ℚ) :
    (0 < h → (IVP_Explicit p h).isSome = true ∧
      (IVP_Implicit p h).isSome = true) ∧
    (h = 0 → IVP_Explicit p h = none ∧ IVP_Implicit p h = none) ∧
    (-2 < h → h < 0 → IVP_Explicit p h = none ∧ IVP_Implicit p h = none) ∧
    (h ≤ -2 → (IVP_Explicit p h).isSome = true ∧
      (IVP_Implicit p h).isSome = true) := by
  refine ⟨?_, ?_, ?_, ?_⟩
  · intro hh
    have hne : h ≠ 0 := ne_of_gt hh
    have hit : ¬ iterationCount h < 1 := by
      have := iterationCount_pos_of_pos h hh
      omega
    constructor
    · unfold IVP_Explicit
      rw [if_neg hne, if_neg hit]
      rfl
    · unfold IVP_Implicit
      rw [if_neg hne, if_neg hit]
      rfl
  · intro hh
    subst hh
    constructor
    · unfold IVP_Explicit
      rw [if_pos rfl]
    · unfold IVP_Implicit
      rw [if_pos rfl]
  · intro hlo hhi
    have hne : h ≠ 0 := ne_of_lt hhi
    have hit : iterationCount h < 1 := by
      have := iterationCount_nonpos_of_small_neg h hlo hhi
      omega
    constructor
    · unfold IVP_Explicit
      rw [if_neg hne, if_pos hit]
    · unfold IVP_Implicit
      rw [if_neg hne, if_pos hit]
  · intro hh
    have hne : h ≠ 0 := by
      intro hc
      rw [hc] at hh
      norm_num at hh
    have hit : ¬ iterationCount h < 1 := by
      rw [iterationCount_of_le_neg_two h hh]
      omega
    constructor
    · unfold IVP_Explicit
      rw [if_neg hne, if_neg hit]
      rfl
    · unfold IVP_Implicit
      rw [if_neg hne, if_neg hit]
      rfl

/-- Counterexample to C5 as stated: h = -3 is at most 0, yet both
integrators return successfully (a single-sample trajectory) instead
of failing. -/
theorem ivp_step_size_errors_C5_cex :
    (-3 : ℚ) ≤ 0 ∧ (IVP_Explicit 0 (-3)).isSome = true ∧
    (IVP_Implicit 0 (-3)).isSome = true := by
  have hne : (-3 : ℚ) ≠ 0 := by norm_num
  have hit : ¬ iterationCount (-3 : ℚ) < 1 := by
    rw [iterationCount_of_le_neg_two (-3) (by norm_num)]
    omega
  refine ⟨by norm_num, ?_, ?_⟩
  · unfold IVP_Explicit
    rw [if_neg hne, if_neg hit]
    rfl
  · unfold IVP_Implicit
    rw [if_neg hne, if_neg hit]
    rfl

/-- Witness for the C5 amended theorem at p = 0, h = 1. -/
theorem ivp_step_size_errors_C5_witness :
    (0 : ℚ) < 1 ∧ (IVP_Explicit 0 1).isSome = true :=
  ⟨by norm_num, ((ivp_step_size_errors_C5 0 1).1 (by norm_num)).1⟩

/-- Claim C3 (amended): for the same (P, h, initial slope) with h > 0,
both integrators produce trajectories of identical length
round(1/h) + 1; the explicit u1 update uses the old u2 while the
semi-implicit u1 update uses the already-updated u2; and whenever at
least one step is taken (round(1/h) at least 1) and P is nonzero, the
two u1 trajectories differ.  (As stated the claim is false: for h > 2
no step is taken and the trajectories coincide, see the
counterexample.) -/
theorem traj_structure_C3 (p h g : ℚ) (hp : p ≠ 0) (hh : 0 < h)
    (hstep : 1 ≤ pyRound (1 / h)) :
    (explicitTrajU p h g).length = (pyRound (1 / h)).toNat + 1 ∧
    (implicitTrajU p h g).length = (explicitTrajU p h g).length ∧
    (∀ i, (explicitState p h g (i + 1)).1 =
      (explicitState p h g i).1 + (explicitState p h g i).2 * h) ∧
    (∀ i, (implicitState p h g (i + 1)).1 =
      (implicitState p h g i).1 + (implicitState p h g (i + 1)).2 * h) ∧
    explicitTrajU p h g ≠ implicitTrajU p h g := by
  have hne : h ≠ 0 := ne_of_gt hh
  have hlen : (iterationCount h).toNat = (pyRound (1 / h)).toNat + 1 := by
    unfold iterationCount
    omega
  refine ⟨?_, ?_, ?_, ?_, ?_⟩
  · unfold explicitTrajU
    rw [List.length_map, List.length_range, hlen]
  · unfold explicitTrajU implicitTrajU
    rw [List.length_map, List.length_map]
  · intro i
    unfold explicitState
    rw [Function.iterate_succ_apply']
    rfl
  · intro i
    unfold implicitState
    rw [Function.iterate_succ_apply']
    rfl
  · intro heq
    have h1lt : 1 < (iterationCount h).toNat := by omega
    have hget := congrArg (fun l => l[1]?) heq
    simp only [explicitTrajU, implicitTrajU, List.getElem?_map] at hget
    rw [List.getElem?_range h1lt] at hget
    simp only [Option.map_some'] at hget
    have hvals : (explicitState p h g 1).1 = (implicitState p h g 1).1 :=
      Option.some.inj hget
    have hex : (explicitState p h g 1).1 = 0 + g * h := by
      simp [explicitState, explicitStep]
    have him : (implicitState p h g 1).1 = 0 + (g + (-p) * h) * h := by
      simp [implicitState, implicitStep]
    rw [hex, him] at hvals
    have hph : p * (h * h) = 0 := by linarith [hvals]
    have : p * (h * h) ≠ 0 := mul_ne_zero hp (mul_ne_zero hne hne)
    exact this hph

/-- Counterexample to C3 as stated: at P = 1, h = 3 (nonzero P,
positive h) round(1/h) = 0, both trajectories are the single sample
[0], and the u1 trajectories do not diverge. -/
theorem traj_structure_C3_cex :
    (1 : ℚ) ≠ 0 ∧ (0 : ℚ) < 3 ∧
    explicitTrajU 1 3 5 = implicitTrajU 1 3 5 := by
  have hf : ⌊(1 / 3 : ℚ)⌋ = 0 := by
    rw [Int.floor_eq_iff]
    norm_num
  have hpr : pyRound (1 / 3 : ℚ) = 0 := by
    unfold pyRound
    rw [hf]
    norm_num
  have hit : iterationCount (3 : ℚ) = 1 := by
    unfold iterationCount
    rw [hpr]
    norm_num
  refine ⟨by norm_num, by norm_num, ?_⟩
  unfold explicitTrajU implicitTrajU
  rw [hit]
  norm_num [List.range_succ, explicitState, implicitState]

/-- Witness for the C3 amended theorem at p = 1, h = 1/2, g = 0. -/
theorem traj_structure_C3_witness :
    ((1 : ℚ) ≠ 0 ∧ (0 : ℚ) < 1/2 ∧ 1 ≤ pyRound (1 / (1/2 : ℚ))) ∧
    (explicitTrajU 1 (1/2) 0).length = (pyRound (1 / (1/2 : ℚ))).toNat + 1 ∧
    explicitTrajU 1 (1/2) 0 ≠ implicitTrajU 1 (1/2) 0 := by
  have hf : ⌊(1 / (1/2 : ℚ))⌋ = 2 := by
    rw [Int.floor_eq_iff]
    norm_num
  have hpr : pyRound (1 / (1/2 : ℚ)) = 2 := by
    unfold pyRound
    rw [hf]
    norm_num
  have hstep : 1 ≤ pyRound (1 / (1/2 : ℚ)) := by
    rw [hpr]
    omega
  exact ⟨⟨by norm_num, by norm_num, hstep⟩,
    (traj_structure_C3 1 (1/2) 0 (by norm_num) (by norm_num) hstep).1,
    (traj_structure_C3 1 (1/2) 0 (by norm_num) (by norm_num) hstep).2.2.2.2⟩

/-- Reduction of the search loop body on a non-initial best. -/
lemma searchStep_some (p : ℚ) (k : ℕ) (d : ℚ) (g : ℕ) :
    searchStep p (some (k, d)) g =
      if |shooting_method (g : ℚ) p - 1| < d
      then some (g, |shooting_method (g : ℚ) p - 1|) else some (k, d) := rfl

/-- Invariant of the line-search fold: after scanning candidates
0..n-1 the best is the first candidate attaining the minimal
deviation. -/
lemma search_spec (p : ℚ) : ∀ n, 1 ≤ n →
    ∃ k d, (List.range n).foldl (searchStep p) none = some (k, d) ∧
      d = |shooting_method (k : ℚ) p - 1| ∧ k < n ∧
      (∀ g < n, d ≤ |shooting_method (g : ℚ) p - 1|) ∧
      (∀ g < k, d < |shooting_method (g : ℚ) p - 1|) := by
  intro n
  induction n with
  | zero => omega
  | succ m ih =>
    intro _
    rcases Nat.eq_zero_or_pos m with hm | hm
    · subst hm
      refine ⟨0, |shooting_method ((0 : ℕ) : ℚ) p - 1|, rfl, rfl, by omega,
        ?_, by omega⟩
      intro g hg
      have hg0 : g = 0 := by omega
      subst hg0
      exact le_refl _
    · obtain ⟨k, d, hfold, hd, hk, hmin, hfirst⟩ := ih hm
      rw [List.range_succ, List.foldl_append, hfold]
      have hsingle : List.foldl (searchStep p) (some (k, d)) [m] =
          searchStep p (some (k, d)) m := rfl
      rw [hsingle, searchStep_some]
      by_cases hlt : |shooting_method (m : ℚ) p - 1| < d
      · rw [if_pos hlt]
        refine ⟨m, _, rfl, rfl, by omega, ?_, ?_⟩
        · intro g hg
          rcases Nat.lt_succ_iff_lt_or_eq.mp hg with hcase | hcase
          · have := hmin g hcase
            linarith
          · subst hcase
            exact le_refl _
        · intro g hg
          have := hmin g hg
          linarith
      · rw [if_neg hlt]
        push_neg at hlt
        refine ⟨k, d, rfl, hd, by omega, ?_, hfirst⟩
        intro g hg
        rcases Nat.lt_succ_iff_lt_or_eq.mp hg with hcase | hcase
        · exact hmin g hcase
        · subst hcase
          exact hlt

/-- Claim C2: for every P, initial_value performs the line search over
candidates 0..99 and returns (it never fails) the first-encountered
candidate minimizing the deviation of the terminal shooting value
from 1, ties broken toward the lowest slope by the strict comparison;
the returned value lies in [0, 99]. -/
theorem initial_value_spec_C2 (p : ℚ) :
    ∃ k : ℕ, initial_value p = some k ∧ k ≤ 99 ∧
      (∀ g : ℕ, g ≤ 99 →
        |shooting_method (k : ℚ) p - 1| ≤ |shooting_method (g : ℚ) p - 1|) ∧
      (∀ g : ℕ, g < k →
        |shooting_method (k : ℚ) p - 1| < |shooting_method (g : ℚ) p - 1|) := by
  obtain ⟨k, d, hfold, hd, hk, hmin, hfirst⟩ := search_spec p 100 (by omega)
  refine ⟨k, ?_, by omega, ?_, ?_⟩
  · unfold initial_value
    rw [hfold]
    rfl
  · intro g hg
    rw [← hd]
    exact hmin g (by omega)
  · intro g hg
    rw [← hd]
    exact hfirst g hg

/-- Claim C8: the characteristic polynomial of the fixed Jacobian
matrix [[0,1],[0,0]] is X^2, so its eigenvalues (with algebraic
multiplicity) are exactly {0, 0}, independent of any input. -/
theorem eigen_report_C8 :
    jacobianMatrix.charpoly = Polynomial.X ^ 2 ∧
    jacobianMatrix.charpoly.roots = {0, 0} := by
  have hcp : jacobianMatrix.charpoly = Polynomial.X ^ 2 := by
    rw [Matrix.charpoly, Matrix.det_fin_two]
    rw [Matrix.charmatrix_apply_eq, Matrix.charmatrix_apply_eq,
      Matrix.charmatrix_apply_ne _ _ _ (by decide),
      Matrix.charmatrix_apply_ne _ _ _ (by decide)]
    simp [jacobianMatrix]
    ring
  refine ⟨hcp, ?_⟩
  rw [hcp, Polynomial.roots_pow, Polynomial.roots_X, two_smul,
    Multiset.singleton_add]
  rfl

end CouettePoiseuille
